import Mathlib

/-!
Verification of `vec-string-to-static-str` (src/lib.rs).

The crate exposes two functions over `&Vec<String>`:

* `vec_string_to_static_str` (lib.rs:25-33): for each input string it runs
  `Box::leak(string.clone().into_boxed_str())`, i.e. it allocates a fresh,
  never-freed copy of the string's bytes and pushes a `&'static str` view of
  that copy.
* `unsafe_vec_string_to_static_str` (lib.rs:64-72, feature `unsafe`): for each
  input string it runs `std::mem::transmute::<&str, &'static str>(string.as_str())`,
  i.e. it pushes a view of the *same* storage with no copy and no allocation.

Embedding.  String contents are modelled by Lean `String` (a Rust `String` is
a UTF-8 byte buffer; byte-for-byte equality of valid UTF-8 buffers coincides
with `String` equality).  The process heap is a list of cells, one per
allocated string buffer; a cell holds `some s` while the buffer is live with
content `s` and `none` once freed.  An owned Rust `String` (and a `&str` view)
is identified by the address of its backing cell.  `Heap.alloc` appends a
fresh cell (the model of `Box::leak` on a fresh copy: the library provides no
way to free it); `Heap.free` models the caller dropping an owned `String`.
Dereferencing a `&String` is `Heap.lookup`; safe Rust guarantees lookups
succeed, which appears here as the hypothesis that every input address is
live, and the safe converter returns `none` exactly when that type-system
guarantee is violated.
-/

namespace VecStringToStaticStr

/-- Content of one Rust `String` buffer. -/
abbrev Str := String

/-- The process heap: cell `a` is `some s` when live with content `s`,
`none` when freed or not yet allocated.  Allocation appends. -/
structure Heap where
  cells : List (Option Str)
deriving DecidableEq

/-- Dereference the buffer at address `a`. -/
def Heap.lookup (h : Heap) (a : Nat) : Option Str :=
  (h.cells[a]?).bind id

/-- Allocate a fresh never-freed buffer with content `s`
(the model of `Box::leak(s.into_boxed_str())`); returns the new heap and the
address of the fresh cell. -/
def Heap.alloc (h : Heap) (s : Str) : Heap × Nat :=
  (⟨h.cells ++ [some s]⟩, h.cells.length)

/-- The caller drops the owned `String` at address `a` (not an operation of
the library; used to state what later destruction of the inputs does). -/
def Heap.free (h : Heap) (a : Nat) : Heap :=
  ⟨h.cells.set a none⟩

/-- The `for string in strings { strs.push(Box::leak(string.clone().into_boxed_str())) }`
loop of lib.rs:28-30, with `strs` the accumulator.  Each iteration
dereferences the input string (`string.clone()` reads the buffer) and
allocates a fresh copy.  `none` signals a dangling input reference, which
safe Rust rules out. -/
def vecLoop (h : Heap) (strings : List Nat) (strs : List Nat) :
    Option (Heap × List Nat) :=
  match strings with
  | [] => some (h, strs)
  | a :: rest =>
    match h.lookup a with
    | none => none
    | some s =>
      let p := h.alloc s
      vecLoop p.1 rest (strs ++ [p.2])

/-- `vec_string_to_static_str` of lib.rs:25-33: start from an empty `strs`
and run the loop over the whole input. -/
def vec_string_to_static_str (h : Heap) (strings : List Nat) :
    Option (Heap × List Nat) :=
  vecLoop h strings []

/-- The `for string in strings { strs.push(transmute(string.as_str())) }`
loop of lib.rs:67-69: each iteration pushes the input's own address, the
heap is untouched. -/
def unsafeLoop (h : Heap) (strings : List Nat) (strs : List Nat) :
    Heap × List Nat :=
  match strings with
  | [] => (h, strs)
  | a :: rest => unsafeLoop h rest (strs ++ [a])

/-- `unsafe_vec_string_to_static_str` of lib.rs:64-72. -/
def unsafe_vec_string_to_static_str (h : Heap) (strings : List Nat) :
    Heap × List Nat :=
  unsafeLoop h strings []

/-- Addresses of `n` consecutive fresh cells starting at `base`. -/
def freshAddrs : Nat → Nat → List Nat
  | _, 0 => []
  | base, n + 1 => base :: freshAddrs (base + 1) n

theorem freshAddrs_length (n : Nat) : ∀ base, (freshAddrs base n).length = n := by
  induction n with
  | zero => intro base; rfl
  | succ n ih => intro base; simp [freshAddrs, ih]

theorem le_of_mem_freshAddrs {n : Nat} :
    ∀ {base b : Nat}, b ∈ freshAddrs base n → base ≤ b := by
  induction n with
  | zero => intro base b hb; simp [freshAddrs] at hb
  | succ n ih =>
    intro base b hb
    simp only [freshAddrs, List.mem_cons] at hb
    rcases hb with rfl | hb
    · exact Nat.le_refl _
    · exact Nat.le_of_succ_le (ih hb)

theorem lt_of_mem_freshAddrs {n : Nat} :
    ∀ {base b : Nat}, b ∈ freshAddrs base n → b < base + n := by
  induction n with
  | zero => intro base b hb; simp [freshAddrs] at hb
  | succ n ih =>
    intro base b hb
    simp only [freshAddrs, List.mem_cons] at hb
    rcases hb with rfl | hb
    · omega
    · have := ih hb; omega

/-- A live lookup forces the address to be in bounds. -/
theorem lt_length_of_lookup_isSome {h : Heap} {a : Nat}
    (hs : (h.lookup a).isSome) : a < h.cells.length := by
  by_contra hlt
  have hnone : h.cells[a]? = none := by
    exact List.getElem?_eq_none_iff.mpr (Nat.le_of_not_lt hlt)
  simp [Heap.lookup, hnone] at hs

/-- Extending the heap with fresh cells does not change live lookups. -/
theorem lookup_append {h : Heap} {a : Nat} (l : List (Option Str))
    (hs : (h.lookup a).isSome) :
    (Heap.mk (h.cells ++ l)).lookup a = h.lookup a := by
  have hlt : a < h.cells.length := lt_length_of_lookup_isSome hs
  simp [Heap.lookup, List.getElem?_append_left hlt]

/-- Reading a fresh cell: the `i`-th fresh address of the extended heap
dereferences to the `i`-th appended cell. -/
theorem freshAddrs_map_lookup (ext : List (Option Str)) :
    ∀ cells : List (Option Str),
      (freshAddrs cells.length ext.length).map
          (Heap.lookup ⟨cells ++ ext⟩) = ext := by
  induction ext with
  | nil => intro cells; rfl
  | cons o ext ih =>
    intro cells
    have hhead : (Heap.lookup ⟨cells ++ o :: ext⟩) cells.length = o := by
      have : (cells ++ o :: ext)[cells.length]? = some o := by
        rw [List.getElem?_append_right (Nat.le_refl _)]
        simp
      simp [Heap.lookup, this]
    have hcast : cells ++ o :: ext = (cells ++ [o]) ++ ext := by
      simp
    have htail := ih (cells ++ [o])
    simp only [List.length_append, List.length_cons, List.length_nil] at htail
    simp only [List.length_cons, freshAddrs, List.map_cons, hhead]
    rw [hcast]
    refine congrArg (o :: ·) ?_
    simpa using htail

/-- Full characterization of the safe loop: when every input reference is
live, the loop succeeds, appends one fresh cell per input holding a copy of
that input's content, and appends the fresh addresses (in input order) to
the accumulator. -/
theorem vecLoop_spec (strings : List Nat) :
    ∀ (h : Heap) (strs : List Nat),
      (∀ a ∈ strings, (h.lookup a).isSome) →
      vecLoop h strings strs =
        some (⟨h.cells ++ strings.map h.lookup⟩,
              strs ++ freshAddrs h.cells.length strings.length) := by
  induction strings with
  | nil => intro h strs _; simp [vecLoop, freshAddrs]
  | cons a rest ih =>
    intro h strs hv
    have ha : (h.lookup a).isSome := hv a (List.mem_cons_self a rest)
    obtain ⟨s, hs⟩ := Option.isSome_iff_exists.mp ha
    have hv1 : ∀ a' ∈ rest, ((Heap.mk (h.cells ++ [some s])).lookup a').isSome := by
      intro a' ha'
      rw [lookup_append [some s] (hv a' (List.mem_cons_of_mem a ha'))]
      exact hv a' (List.mem_cons_of_mem a ha')
    have hmap : rest.map (Heap.mk (h.cells ++ [some s])).lookup =
        rest.map h.lookup := by
      refine List.map_congr_left ?_
      intro a' ha'
      exact lookup_append [some s] (hv a' (List.mem_cons_of_mem a ha'))
    simp only [vecLoop, hs, Heap.alloc]
    rw [ih ⟨h.cells ++ [some s]⟩ (strs ++ [h.cells.length]) hv1]
    simp [hmap, hs, freshAddrs, List.append_assoc, Nat.add_comm]

/-- The safe converter, characterized. -/
theorem vec_string_to_static_str_spec (h : Heap) (strings : List Nat)
    (hv : ∀ a ∈ strings, (h.lookup a).isSome) :
    vec_string_to_static_str h strings =
      some (⟨h.cells ++ strings.map h.lookup⟩,
            freshAddrs h.cells.length strings.length) := by
  simpa [vec_string_to_static_str] using vecLoop_spec strings h [] hv

/-- The unchecked loop pushes exactly the input addresses and leaves the
heap untouched. -/
theorem unsafeLoop_spec (strings : List Nat) :
    ∀ (h : Heap) (strs : List Nat),
      unsafeLoop h strings strs = (h, strs ++ strings) := by
  induction strings with
  | nil => intro h strs; simp [unsafeLoop]
  | cons a rest ih =>
    intro h strs
    simp [unsafeLoop, ih h (strs ++ [a])]

/-- The unchecked converter is address-identity on the input and identity
on the heap. -/
theorem unsafe_vec_string_to_static_str_spec (h : Heap) (strings : List Nat) :
    unsafe_vec_string_to_static_str h strings = (h, strings) := by
  simp [unsafe_vec_string_to_static_str, unsafeLoop_spec]

/-- The accumulator is only ever prepended to the loop's own output. -/
theorem vecLoop_acc (strings : List Nat) :
    ∀ (h : Heap) (strs : List Nat),
      vecLoop h strings strs =
        (vecLoop h strings []).map (fun p => (p.1, strs ++ p.2)) := by
  induction strings with
  | nil => intro h strs; simp [vecLoop]
  | cons a rest ih =>
    intro h strs
    cases hs : h.lookup a with
    | none => simp [vecLoop, hs]
    | some s =>
      have hl : vecLoop h (a :: rest) strs =
          vecLoop (h.alloc s).1 rest (strs ++ [(h.alloc s).2]) := by
        simp [vecLoop, hs]
      have hr : vecLoop h (a :: rest) [] =
          vecLoop (h.alloc s).1 rest [(h.alloc s).2] := by
        simp [vecLoop, hs]
      rw [hl, hr, ih _ (strs ++ [(h.alloc s).2]), ih _ [(h.alloc s).2]]
      cases vecLoop (h.alloc s).1 rest [] with
      | none => rfl
      | some p => simp

/-- Freeing one cell leaves every other cell's lookup unchanged. -/
theorem lookup_free_of_ne (h : Heap) {a b : Nat} (hne : a ≠ b) :
    (h.free a).lookup b = h.lookup b := by
  simp [Heap.free, Heap.lookup, List.getElem?_set_ne hne]

/-- The fresh cells of the safe converter's output heap dereference to the
contents of the corresponding inputs, in order. -/
theorem out_map_lookup (h : Heap) (strings : List Nat) :
    (freshAddrs h.cells.length strings.length).map
        (Heap.lookup ⟨h.cells ++ strings.map h.lookup⟩) =
      strings.map h.lookup := by
  have := freshAddrs_map_lookup (strings.map h.lookup) h.cells
  simpa using this

/-- A concrete two-string heap used to instantiate the hypotheses of the
general theorems (the `["hello", "world"]` example of lib.rs:21-23). -/
def sampleHeap : Heap :=
  ⟨[some "hello", some "world"]⟩

/-- Claim C1: for every input sequence of live strings and every index
`i < len(S)`, element `i` of `vec_string_to_static_str(S)` is byte-for-byte
equal to element `i` of `S`, and the whole output dereferences to exactly the
input contents in input order (no reordering, deduplication, or filtering). -/
theorem safe_elementwise_byte_equal (h : Heap) (strings : List Nat) (i : Nat)
    (hv : ∀ a ∈ strings, (h.lookup a).isSome) (hi : i < strings.length) :
    ∃ h' out, vec_string_to_static_str h strings = some (h', out) ∧
      out.length = strings.length ∧
      (∃ a b s, strings[i]? = some a ∧ out[i]? = some b ∧
        h.lookup a = some s ∧ h'.lookup b = some s) ∧
      out.map h'.lookup = strings.map h.lookup := by
  refine ⟨_, _, vec_string_to_static_str_spec h strings hv, ?_, ?_,
    out_map_lookup h strings⟩
  · simp [freshAddrs_length]
  · have hi' : i < (freshAddrs h.cells.length strings.length).length := by
      rw [freshAddrs_length]; exact hi
    have hmem : strings[i] ∈ strings := List.getElem_mem hi
    obtain ⟨s, hsv⟩ := Option.isSome_iff_exists.mp (hv _ hmem)
    refine ⟨strings[i], (freshAddrs h.cells.length strings.length)[i], s,
      List.getElem?_eq_getElem hi, List.getElem?_eq_getElem hi', hsv, ?_⟩
    have hmap := congrArg (fun l => l[i]?) (out_map_lookup h strings)
    simp only [List.getElem?_map, List.getElem?_eq_getElem hi,
      List.getElem?_eq_getElem hi', Option.map_some', Option.some.injEq] at hmap
    exact hmap.trans hsv

theorem safe_elementwise_byte_equal_witness :
    (∀ a ∈ ([0, 1] : List Nat), (sampleHeap.lookup a).isSome) ∧
      0 < ([0, 1] : List Nat).length ∧
      ∃ h' out, vec_string_to_static_str sampleHeap [0, 1] = some (h', out) ∧
        out.length = ([0, 1] : List Nat).length ∧
        (∃ a b s, ([0, 1] : List Nat)[0]? = some a ∧ out[0]? = some b ∧
          sampleHeap.lookup a = some s ∧ h'.lookup b = some s) ∧
        out.map h'.lookup = ([0, 1] : List Nat).map sampleHeap.lookup :=
  ⟨by decide, by decide,
    safe_elementwise_byte_equal sampleHeap [0, 1] 0 (by decide) (by decide)⟩

/-- Claim C2: for every input sequence of live strings, including the empty
sequence, the output of `vec_string_to_static_str` has the same length as the
input; the empty input yields the empty output. -/
theorem safe_length_preserved (h : Heap) (strings : List Nat)
    (hv : ∀ a ∈ strings, (h.lookup a).isSome) :
    (∃ h' out, vec_string_to_static_str h strings = some (h', out) ∧
      out.length = strings.length) ∧
      vec_string_to_static_str h [] = some (h, []) := by
  refine ⟨⟨_, _, vec_string_to_static_str_spec h strings hv, ?_⟩, rfl⟩
  simp [freshAddrs_length]

theorem safe_length_preserved_witness :
    (∀ a ∈ ([0, 1] : List Nat), (sampleHeap.lookup a).isSome) ∧
      ((∃ h' out, vec_string_to_static_str sampleHeap [0, 1] = some (h', out) ∧
        out.length = ([0, 1] : List Nat).length) ∧
        vec_string_to_static_str sampleHeap [] = some (sampleHeap, [])) :=
  ⟨by decide, safe_length_preserved sampleHeap [0, 1] (by decide)⟩

/-- Claim C3: when the `unsafe` feature is enabled and the input storage is
live, `unsafe_vec_string_to_static_str` satisfies the same length and
element-wise byte-equality properties as `vec_string_to_static_str`, and the
two output sequences dereference to equal sequences of contents. -/
theorem unsafe_matches_safe (h : Heap) (strings : List Nat)
    (hv : ∀ a ∈ strings, (h.lookup a).isSome) :
    ∃ h' out, vec_string_to_static_str h strings = some (h', out) ∧
      (unsafe_vec_string_to_static_str h strings).2.length = strings.length ∧
      (unsafe_vec_string_to_static_str h strings).2.map
          (unsafe_vec_string_to_static_str h strings).1.lookup =
        strings.map h.lookup ∧
      (unsafe_vec_string_to_static_str h strings).2.map
          (unsafe_vec_string_to_static_str h strings).1.lookup =
        out.map h'.lookup := by
  refine ⟨_, _, vec_string_to_static_str_spec h strings hv, ?_, ?_, ?_⟩
  · simp [unsafe_vec_string_to_static_str_spec]
  · simp [unsafe_vec_string_to_static_str_spec]
  · rw [out_map_lookup]
    simp [unsafe_vec_string_to_static_str_spec]

theorem unsafe_matches_safe_witness :
    (∀ a ∈ ([0, 1] : List Nat), (sampleHeap.lookup a).isSome) ∧
      ∃ h' out, vec_string_to_static_str sampleHeap [0, 1] = some (h', out) ∧
        (unsafe_vec_string_to_static_str sampleHeap [0, 1]).2.length =
          ([0, 1] : List Nat).length ∧
        (unsafe_vec_string_to_static_str sampleHeap [0, 1]).2.map
            (unsafe_vec_string_to_static_str sampleHeap [0, 1]).1.lookup =
          ([0, 1] : List Nat).map sampleHeap.lookup ∧
        (unsafe_vec_string_to_static_str sampleHeap [0, 1]).2.map
            (unsafe_vec_string_to_static_str sampleHeap [0, 1]).1.lookup =
          out.map h'.lookup :=
  ⟨by decide, unsafe_matches_safe sampleHeap [0, 1] (by decide)⟩

/-- Claim C5: for every input, every output view of
`unsafe_vec_string_to_static_str` aliases exactly the storage of the
corresponding input element (the output addresses are the input addresses),
and the heap is untouched: zero copying, zero new allocation. -/
theorem unsafe_aliases_without_alloc (h : Heap) (strings : List Nat) :
    unsafe_vec_string_to_static_str h strings = (h, strings) :=
  unsafe_vec_string_to_static_str_spec h strings

/-- Claim C4: for every input of live strings, each output view of
`vec_string_to_static_str` points at freshly allocated storage (an address at
or beyond the old end of the heap, so distinct from every previously
allocated cell), holding a verbatim copy of the corresponding input's
content; and no later drop of an owned string (any cell live before the
call) releases it: freeing any such cell leaves every output lookup intact
and live. -/
theorem safe_fresh_copy_never_freed (h : Heap) (strings : List Nat)
    (hv : ∀ a ∈ strings, (h.lookup a).isSome) :
    ∃ h' out, vec_string_to_static_str h strings = some (h', out) ∧
      (∀ b ∈ out, h.cells.length ≤ b) ∧
      out.map h'.lookup = strings.map h.lookup ∧
      ∀ a, (h.lookup a).isSome → ∀ b ∈ out,
        (h'.free a).lookup b = h'.lookup b ∧ (h'.lookup b).isSome := by
  refine ⟨_, _, vec_string_to_static_str_spec h strings hv, ?_, ?_, ?_⟩
  · intro b hb
    exact le_of_mem_freshAddrs hb
  · exact out_map_lookup h strings
  · intro a ha b hb
    have hab : a ≠ b := by
      have h1 := lt_length_of_lookup_isSome ha
      have h2 := le_of_mem_freshAddrs hb
      omega
    refine ⟨lookup_free_of_ne _ hab, ?_⟩
    have hmem : Heap.lookup ⟨h.cells ++ strings.map h.lookup⟩ b ∈
        (freshAddrs h.cells.length strings.length).map
          (Heap.lookup ⟨h.cells ++ strings.map h.lookup⟩) :=
      List.mem_map_of_mem _ hb
    rw [out_map_lookup h strings] at hmem
    obtain ⟨a', ha', heq⟩ := List.mem_map.mp hmem
    rw [← heq]
    exact hv a' ha'

theorem safe_fresh_copy_never_freed_witness :
    (∀ a ∈ ([0, 1] : List Nat), (sampleHeap.lookup a).isSome) ∧
      ∃ h' out, vec_string_to_static_str sampleHeap [0, 1] = some (h', out) ∧
        (∀ b ∈ out, sampleHeap.cells.length ≤ b) ∧
        out.map h'.lookup = ([0, 1] : List Nat).map sampleHeap.lookup ∧
        ∀ a, (sampleHeap.lookup a).isSome → ∀ b ∈ out,
          (h'.free a).lookup b = h'.lookup b ∧ (h'.lookup b).isSome :=
  ⟨by decide, safe_fresh_copy_never_freed sampleHeap [0, 1] (by decide)⟩

/-- Claim C6: both converters are total and all-or-nothing: on every input of
live strings the safe converter returns a complete output (never `none`,
never a partial sequence), and the unchecked converter always returns a
complete output of the same length as the input. -/
theorem both_total_all_or_nothing (h : Heap) (strings : List Nat)
    (hv : ∀ a ∈ strings, (h.lookup a).isSome) :
    (∃ h' out, vec_string_to_static_str h strings = some (h', out) ∧
      out.length = strings.length) ∧
      (unsafe_vec_string_to_static_str h strings).2.length = strings.length := by
  refine ⟨⟨_, _, vec_string_to_static_str_spec h strings hv, ?_⟩, ?_⟩
  · simp [freshAddrs_length]
  · simp [unsafe_vec_string_to_static_str_spec]

theorem both_total_all_or_nothing_witness :
    (∀ a ∈ ([0, 1] : List Nat), (sampleHeap.lookup a).isSome) ∧
      ((∃ h' out, vec_string_to_static_str sampleHeap [0, 1] = some (h', out) ∧
        out.length = ([0, 1] : List Nat).length) ∧
        (unsafe_vec_string_to_static_str sampleHeap [0, 1]).2.length =
          ([0, 1] : List Nat).length) :=
  ⟨by decide, both_total_all_or_nothing sampleHeap [0, 1] (by decide)⟩

/-- Claim C7: two successive calls of `vec_string_to_static_str` on the same
logical input are deterministic and independent: both succeed, each output
sequence dereferences to exactly the input contents, and the two outputs
share no storage cell. -/
theorem safe_two_runs_deterministic (h : Heap) (strings : List Nat)
    (hv : ∀ a ∈ strings, (h.lookup a).isSome) :
    ∃ h1 out1 h2 out2,
      vec_string_to_static_str h strings = some (h1, out1) ∧
      vec_string_to_static_str h1 strings = some (h2, out2) ∧
      out1.map h1.lookup = strings.map h.lookup ∧
      out2.map h2.lookup = strings.map h.lookup ∧
      ∀ b ∈ out1, ∀ b' ∈ out2, b ≠ b' := by
  have hv1 : ∀ a ∈ strings,
      ((Heap.mk (h.cells ++ strings.map h.lookup)).lookup a).isSome := by
    intro a ha
    rw [lookup_append _ (hv a ha)]
    exact hv a ha
  have hpres : strings.map
      (Heap.mk (h.cells ++ strings.map h.lookup)).lookup = strings.map h.lookup := by
    refine List.map_congr_left ?_
    intro a ha
    exact lookup_append _ (hv a ha)
  refine ⟨_, _, _, _, vec_string_to_static_str_spec h strings hv,
    vec_string_to_static_str_spec _ strings hv1, out_map_lookup h strings, ?_, ?_⟩
  · rw [hpres]
    have key := out_map_lookup ⟨h.cells ++ strings.map h.lookup⟩ strings
    rw [hpres] at key
    exact key
  · intro b hb b' hb'
    have h1 := lt_of_mem_freshAddrs hb
    have h2 := le_of_mem_freshAddrs hb'
    simp only [Heap.mk.injEq, List.length_append, List.length_map] at h2
    omega

theorem safe_two_runs_deterministic_witness :
    (∀ a ∈ ([0, 1] : List Nat), (sampleHeap.lookup a).isSome) ∧
      ∃ h1 out1 h2 out2,
        vec_string_to_static_str sampleHeap [0, 1] = some (h1, out1) ∧
        vec_string_to_static_str h1 [0, 1] = some (h2, out2) ∧
        out1.map h1.lookup = ([0, 1] : List Nat).map sampleHeap.lookup ∧
        out2.map h2.lookup = ([0, 1] : List Nat).map sampleHeap.lookup ∧
        ∀ b ∈ out1, ∀ b' ∈ out2, b ≠ b' :=
  ⟨by decide, safe_two_runs_deterministic sampleHeap [0, 1] (by decide)⟩

/-- The multi-byte test heap of lib.rs:113-133: four live strings with
non-ASCII content. -/
def multiByteHeap : Heap :=
  ⟨[some "hello, world!", some "你好，世界！",
    some "こんにちは、世界！", some "안녕하세요, 세계!"]⟩

/-- Claim C8: `vec_string_to_static_str` preserves text encoding
byte-for-byte on multi-byte content: applied to the sequence
`["hello, world!", "你好，世界！", "こんにちは、世界！", "안녕하세요, 세계!"]`
it yields a sequence dereferencing to exactly those contents, identical to
what the inputs dereference to. -/
theorem safe_multibyte_roundtrip :
    ∃ h', vec_string_to_static_str multiByteHeap [0, 1, 2, 3] =
        some (h', [4, 5, 6, 7]) ∧
      ([4, 5, 6, 7] : List Nat).map h'.lookup =
        [some "hello, world!", some "你好，世界！",
          some "こんにちは、世界！", some "안녕하세요, 세계!"] ∧
      ([0, 1, 2, 3] : List Nat).map multiByteHeap.lookup =
        [some "hello, world!", some "你好，世界！",
          some "こんにちは、世界！", some "안녕하세요, 세계!"] :=
  ⟨_, rfl, rfl, rfl⟩

/-- Claim C9: neither converter modifies its input: every cell live before
the call is unchanged in the safe converter's output heap, and the unchecked
converter leaves the heap entirely untouched; moreover, after the safe
converter returns, the caller may destroy (free) any input cell without
changing any output view's content or validity. -/
theorem inputs_unchanged_outputs_survive (h : Heap) (strings : List Nat)
    (hv : ∀ a ∈ strings, (h.lookup a).isSome) :
    ∃ h' out, vec_string_to_static_str h strings = some (h', out) ∧
      (∀ a, a < h.cells.length → h'.cells[a]? = h.cells[a]?) ∧
      (unsafe_vec_string_to_static_str h strings).1 = h ∧
      ∀ a, (h.lookup a).isSome → ∀ b ∈ out,
        (h'.free a).lookup b = h'.lookup b ∧ ((h'.free a).lookup b).isSome := by
  refine ⟨_, _, vec_string_to_static_str_spec h strings hv, ?_, ?_, ?_⟩
  · intro a ha
    exact List.getElem?_append_left ha
  · simp [unsafe_vec_string_to_static_str_spec]
  · intro a ha b hb
    have hab : a ≠ b := by
      have h1 := lt_length_of_lookup_isSome ha
      have h2 := le_of_mem_freshAddrs hb
      omega
    have hfree := lookup_free_of_ne
      (⟨h.cells ++ strings.map h.lookup⟩ : Heap) hab
    refine ⟨hfree, ?_⟩
    rw [hfree]
    have hmem : Heap.lookup ⟨h.cells ++ strings.map h.lookup⟩ b ∈
        (freshAddrs h.cells.length strings.length).map
          (Heap.lookup ⟨h.cells ++ strings.map h.lookup⟩) :=
      List.mem_map_of_mem _ hb
    rw [out_map_lookup h strings] at hmem
    obtain ⟨a', ha', heq⟩ := List.mem_map.mp hmem
    rw [← heq]
    exact hv a' ha'

theorem inputs_unchanged_outputs_survive_witness :
    (∀ a ∈ ([0, 1] : List Nat), (sampleHeap.lookup a).isSome) ∧
      ∃ h' out, vec_string_to_static_str sampleHeap [0, 1] = some (h', out) ∧
        (∀ a, a < sampleHeap.cells.length →
          h'.cells[a]? = sampleHeap.cells[a]?) ∧
        (unsafe_vec_string_to_static_str sampleHeap [0, 1]).1 = sampleHeap ∧
        ∀ a, (sampleHeap.lookup a).isSome → ∀ b ∈ out,
          (h'.free a).lookup b = h'.lookup b ∧
            ((h'.free a).lookup b).isSome :=
  ⟨by decide, inputs_unchanged_outputs_survive sampleHeap [0, 1] (by decide)⟩

/-- Claim C10: `vec_string_to_static_str` is element-wise (a map over the
input): on a concatenation `S ++ T` it produces exactly the outputs for `S`
followed by the outputs for `T` (run on the heap `S` left behind), with no
cross-element dependence; this holds for all inputs, live or not. -/
theorem safe_is_elementwise_map (h : Heap) (S T : List Nat) :
    vec_string_to_static_str h (S ++ T) =
      (vec_string_to_static_str h S).bind (fun p =>
        (vec_string_to_static_str p.1 T).map (fun q => (q.1, p.2 ++ q.2))) := by
  induction S generalizing h with
  | nil =>
    cases hT : vecLoop h T [] with
    | none => simp [vec_string_to_static_str, vecLoop, hT]
    | some q => simp [vec_string_to_static_str, vecLoop, hT]
  | cons a S ih =>
    cases hs : h.lookup a with
    | none =>
      simp [vec_string_to_static_str, vecLoop, hs]
    | some s =>
      have hl : vec_string_to_static_str h ((a :: S) ++ T) =
          vecLoop (h.alloc s).1 (S ++ T) [(h.alloc s).2] := by
        simp [vec_string_to_static_str, vecLoop, hs]
      have hr : vec_string_to_static_str h (a :: S) =
          vecLoop (h.alloc s).1 S [(h.alloc s).2] := by
        simp [vec_string_to_static_str, vecLoop, hs]
      rw [hl, hr, vecLoop_acc (S ++ T) _ [(h.alloc s).2],
        vecLoop_acc S _ [(h.alloc s).2]]
      have hih := ih (h.alloc s).1
      simp only [vec_string_to_static_str] at hih ⊢
      rw [hih]
      cases hp : vecLoop (h.alloc s).1 S [] with
      | none => simp
      | some p =>
        cases hq : vecLoop p.1 T [] with
        | none => simp [hq]
        | some q => simp [hq]

end VecStringToStaticStr
